import Mathlib

/-!
Verification of the jhafranco/Crypto repository (AES engine with ECB/CBC modes,
CFB8/CFB128 helpers, AES-GCM, RC4) against its natural-language specification.

The Python source is shallowly embedded: bytes become `List Nat` (each element a
byte value), integers become `Nat`, and code that can raise/exit returns
`Option`.  Python `while` loops are modelled as structurally recursive
functions carrying an explicit fuel argument that provably dominates the number
of iterations of the source loop, so every definition is executable and
kernel-reducible.
-/

set_option maxRecDepth 8000

namespace Crypto

/-- Big-endian byte-list to integer, `reduce(lambda x,y:(x<<8)+y,lst)` as used
by `AES.listToInt`, `AES_CFB.listToInt`/`bytesToInt` and `AES_GCM.listToInt`.
(Python's `reduce` over a one-element-or-longer list agrees with a left fold
from 0 because `(0<<8)+y = y`; the sources never apply it to an empty list.) -/
def listToInt (lst : List Nat) : Nat :=
  lst.foldl (fun x y => (x <<< 8) + y) 0

/-- Little-endian byte extraction, the loop
`while number: lst.append(number&0xff); number >>= 8` shared by
`AES.intToList2`, `AES_CFB.intToList`/`intToList2` and the GCM test helpers.
The fuel only bounds the iteration count; the loop itself stops when the
number reaches 0, and it runs at most `number` times, so `toBytesLE` below
always supplies enough fuel. -/
def toBytesLEgo : Nat → Nat → List Nat
  | 0, _ => []
  | fuel + 1, number =>
    if number = 0 then [] else (number &&& 0xff) :: toBytesLEgo fuel (number >>> 8)

/-- Little-endian byte list of a natural number (empty for 0). -/
def toBytesLE (number : Nat) : List Nat := toBytesLEgo number number

namespace AES

/-- Multiplication in GF(2^8) modulo x^8+x^4+x^3+x+1 (`AES.mult`).  The
source's `while p2:` loop halves `p2` each iteration, so it runs at most
`p2` times; the fuel argument is initialised to `p2` and therefore never
runs out before the loop guard fails. -/
def multGo : Nat → Nat → Nat → Nat → Nat
  | 0, p, _, _ => p
  | fuel + 1, p, p1, p2 =>
    if p2 = 0 then p
    else
      let p' := if p2 &&& 0x01 ≠ 0 then p ^^^ p1 else p
      let s := p1 <<< 1
      let p1' := if s &&& 0x100 ≠ 0 then s ^^^ 0x1b else s
      multGo fuel p' p1' (p2 >>> 1)

/-- Multiply two polynomials in GF(2^8)/x^8+x^4+x^3+x+1 (`AES.mult`). -/
def mult (p1 p2 : Nat) : Nat := multGo p2 0 p1 p2 &&& 0xff

/-- Multiplication by 2 (`AES.x2`). -/
def x2 (y : Nat) : Nat := mult 2 y

/-- Multiplication by 3 (`AES.x3`). -/
def x3 (y : Nat) : Nat := mult 3 y

/-- The AES S-Box (`AES.AES.sBox`). -/
def sBox : List Nat :=
  [0x63,0x7c,0x77,0x7b,0xf2,0x6b,0x6f,0xc5,
   0x30,0x01,0x67,0x2b,0xfe,0xd7,0xab,0x76,
   0xca,0x82,0xc9,0x7d,0xfa,0x59,0x47,0xf0,
   0xad,0xd4,0xa2,0xaf,0x9c,0xa4,0x72,0xc0,
   0xb7,0xfd,0x93,0x26,0x36,0x3f,0xf7,0xcc,
   0x34,0xa5,0xe5,0xf1,0x71,0xd8,0x31,0x15,
   0x04,0xc7,0x23,0xc3,0x18,0x96,0x05,0x9a,
   0x07,0x12,0x80,0xe2,0xeb,0x27,0xb2,0x75,
   0x09,0x83,0x2c,0x1a,0x1b,0x6e,0x5a,0xa0,
   0x52,0x3b,0xd6,0xb3,0x29,0xe3,0x2f,0x84,
   0x53,0xd1,0x00,0xed,0x20,0xfc,0xb1,0x5b,
   0x6a,0xcb,0xbe,0x39,0x4a,0x4c,0x58,0xcf,
   0xd0,0xef,0xaa,0xfb,0x43,0x4d,0x33,0x85,
   0x45,0xf9,0x02,0x7f,0x50,0x3c,0x9f,0xa8,
   0x51,0xa3,0x40,0x8f,0x92,0x9d,0x38,0xf5,
   0xbc,0xb6,0xda,0x21,0x10,0xff,0xf3,0xd2,
   0xcd,0x0c,0x13,0xec,0x5f,0x97,0x44,0x17,
   0xc4,0xa7,0x7e,0x3d,0x64,0x5d,0x19,0x73,
   0x60,0x81,0x4f,0xdc,0x22,0x2a,0x90,0x88,
   0x46,0xee,0xb8,0x14,0xde,0x5e,0x0b,0xdb,
   0xe0,0x32,0x3a,0x0a,0x49,0x06,0x24,0x5c,
   0xc2,0xd3,0xac,0x62,0x91,0x95,0xe4,0x79,
   0xe7,0xc8,0x37,0x6d,0x8d,0xd5,0x4e,0xa9,
   0x6c,0x56,0xf4,0xea,0x65,0x7a,0xae,0x08,
   0xba,0x78,0x25,0x2e,0x1c,0xa6,0xb4,0xc6,
   0xe8,0xdd,0x74,0x1f,0x4b,0xbd,0x8b,0x8a,
   0x70,0x3e,0xb5,0x66,0x48,0x03,0xf6,0x0e,
   0x61,0x35,0x57,0xb9,0x86,0xc1,0x1d,0x9e,
   0xe1,0xf8,0x98,0x11,0x69,0xd9,0x8e,0x94,
   0x9b,0x1e,0x87,0xe9,0xce,0x55,0x28,0xdf,
   0x8c,0xa1,0x89,0x0d,0xbf,0xe6,0x42,0x68,
   0x41,0x99,0x2d,0x0f,0xb0,0x54,0xbb,0x16]

/-- Key size identifiers accepted by `AES.AES.setKey` (invalid identifiers
make the Python process exit, so the embedding restricts to the valid ones). -/
inductive KeySize
  | SIZE_128
  | SIZE_192
  | SIZE_256
deriving DecidableEq

/-- Cipher modes accepted by the `AES.AES` constructor. -/
inductive CipherMode
  | MODE_ECB
  | MODE_CBC
deriving DecidableEq

/-- Padding schemes accepted by the `AES.AES` constructor. -/
inductive PaddingScheme
  | NoPadding
  | PKCS5Padding
deriving DecidableEq

open KeySize CipherMode PaddingScheme

/-- `AES.AES.keySizeTable`. -/
def keySizeTable : KeySize → Nat
  | SIZE_128 => 16
  | SIZE_192 => 24
  | SIZE_256 => 32

/-- `AES.AES.wordSizeTable`. -/
def wordSizeTable : KeySize → Nat
  | SIZE_128 => 44
  | SIZE_192 => 52
  | SIZE_256 => 60

/-- `AES.AES.numberOfRoundsTable`. -/
def numberOfRoundsTable : KeySize → Nat
  | SIZE_128 => 10
  | SIZE_192 => 12
  | SIZE_256 => 14

/-- An `AES.AES` object after a successful `setKey` (key-defined flag true). -/
structure AESengine where
  cipherMode : CipherMode
  padding : PaddingScheme
  wordSize : Nat
  w : List Nat
  numberOfRounds : Nat
  ivEncrypt : List Nat
  ivDecrypt : List Nat
deriving DecidableEq

/-- `AES.AES.intToList`: a 16-byte big-endian list of a 16-byte number. -/
def intToList (number : Nat) : List Nat :=
  (List.range 16).map fun k => (number >>> (8 * (15 - k))) &&& 0xff

/-- `AES.AES.wordToState`: 4 words to a 16-element state list, laid out as
`[(wordList[i]>>j)&0xff for j in reversed(range(0,32,8)) for i in range(4)]`. -/
def wordToState (wordList : List Nat) : List Nat :=
  let b := fun (i j : Nat) => (wordList.getD i 0 >>> j) &&& 0xff
  [b 0 24, b 1 24, b 2 24, b 3 24,
   b 0 16, b 1 16, b 2 16, b 3 16,
   b 0 8, b 1 8, b 2 8, b 3 8,
   b 0 0, b 1 0, b 2 0, b 3 0]

/-- `AES.AES.listToState`: `[list[i+j] for j in range(4) for i in range(0,16,4)]`. -/
def listToState (l : List Nat) : List Nat :=
  [l.getD 0 0, l.getD 4 0, l.getD 8 0, l.getD 12 0,
   l.getD 1 0, l.getD 5 0, l.getD 9 0, l.getD 13 0,
   l.getD 2 0, l.getD 6 0, l.getD 10 0, l.getD 14 0,
   l.getD 3 0, l.getD 7 0, l.getD 11 0, l.getD 15 0]

/-- `AES.AES.stateToList = listToState` (the permutation is an involution). -/
def stateToList : List Nat → List Nat := listToState

/-- `AES.AES.subBytes`. -/
def subBytes (state : List Nat) : List Nat := state.map fun e => sBox.getD e 0

/-- `AES.AES.shiftRows`: `s[:4]+s[5:8]+s[4:5]+s[10:12]+s[8:10]+s[15:]+s[12:15]`. -/
def shiftRows (s : List Nat) : List Nat :=
  s.take 4 ++ (s.drop 5).take 3 ++ (s.drop 4).take 1 ++ (s.drop 10).take 2 ++
    (s.drop 8).take 2 ++ s.drop 15 ++ (s.drop 12).take 3

/-- `AES.AES.mixColumns`. -/
def mixColumns (s : List Nat) : List Nat :=
  let g := fun k => s.getD k 0
  ((List.range 4).map fun i => x2 (g i) ^^^ x3 (g (i+4)) ^^^ g (i+8) ^^^ g (i+12)) ++
  ((List.range 4).map fun i => g i ^^^ x2 (g (i+4)) ^^^ x3 (g (i+8)) ^^^ g (i+12)) ++
  ((List.range 4).map fun i => g i ^^^ g (i+4) ^^^ x2 (g (i+8)) ^^^ x3 (g (i+12))) ++
  ((List.range 4).map fun i => x3 (g i) ^^^ g (i+4) ^^^ g (i+8) ^^^ x2 (g (i+12)))

/-- `AES.AES.addRoundKey`: byte-wise XOR of a subkey into the state. -/
def addRoundKey (subkey state : List Nat) : List Nat :=
  List.zipWith (fun i j => i ^^^ j) subkey state

/-- `AES.AES.xorLists = addRoundKey`. -/
def xorLists : List Nat → List Nat → List Nat := addRoundKey

/-- `AES.AES.rotWord`. -/
def rotWord (number : Nat) : Nat :=
  ((number &&& 0xff000000) >>> 24) + ((number &&& 0xff0000) <<< 8) +
    ((number &&& 0xff00) <<< 8) + ((number &&& 0xff) <<< 8)

/-- `AES.AES.subWord`. -/
def subWord (key : Nat) : Nat :=
  (sBox.getD ((key >>> 24) &&& 0xff) 0 <<< 24) +
    (sBox.getD ((key >>> 16) &&& 0xff) 0 <<< 16) +
    (sBox.getD ((key >>> 8) &&& 0xff) 0 <<< 8) +
    sBox.getD (key &&& 0xff) 0

/-- The `rcon` table local to `AES.AES.setKey`. -/
def rcon : List Nat := [0x00,0x01,0x02,0x04,0x08,0x10,0x20,0x40,0x80,0x1B,0x36]

/-- Number of hex digits of a natural number, the length of Python's
`"{:x}".format(key)` (1 digit for 0).  Fueled division loop; the number of
iterations is at most `log16` of the input, so fuel `n` always suffices. -/
def hexDigitsGo : Nat → Nat → Nat
  | 0, _ => 1
  | fuel + 1, n => if n < 16 then 1 else hexDigitsGo fuel (n / 16) + 1

/-- Byte length of a key as computed by `AES.AES.setKey`:
`len("{:02x}".format(key))//2` (the `02` format pads to at least two digits). -/
def klen (key : Nat) : Nat := max 2 (hexDigitsGo key key) / 2

/-- The key-expansion loop of `AES.AES.setKey`
(`for index in range(nk, wordSize): ...`), with the running index and the
word list `w` as explicit state.  The fuel is the exact trip count
`wordSize - nk`. -/
def expandGo (nk nr : Nat) : Nat → Nat → List Nat → List Nat
  | 0, _, w => w
  | fuel + 1, index, w =>
    let t := w.getD (index - 1) 0
    let temp :=
      if index % nk = 0 then subWord (rotWord t) ^^^ (rcon.getD (index / nk) 0 <<< 24)
      else if nr = 14 ∧ index % nk = 4 then subWord t
      else t
    expandGo nk nr fuel (index + 1) (w ++ [w.getD (index - nk) 0 ^^^ temp])

/-- `AES.AES.setKey` combined with the constructor checks of `AES.AES.__init__`
(mode and padding validity is enforced by the enum types).  Returns `none`
where the Python code exits: key byte-length above the declared key size, or
CBC mode without an IV. -/
def setKey (mode : CipherMode) (pad : PaddingScheme) (keySize : KeySize)
    (key : Nat) (iv : Option Nat) : Option AESengine :=
  if klen key ≤ keySizeTable keySize then
    match mode, iv with
    | MODE_CBC, none => none
    | _, _ =>
      let ivE := match mode, iv with
        | MODE_CBC, some n => intToList n
        | _, _ => []
      let nr := numberOfRoundsTable keySize
      let ws := wordSizeTable keySize
      let nk := if nr = 10 then 4 else if nr = 12 then 6 else 8
      let keyList :=
        if nr = 10 then intToList key
        else if nr = 12 then intToList (key >>> 64) ++ (intToList (key &&& (2 ^ 256 - 1))).drop 8
        else intToList (key >>> 128) ++ intToList (key &&& (2 ^ 512 - 1))
      let w0 := (List.range nk).map fun i =>
        (keyList.getD (4*i) 0 <<< 24) + (keyList.getD (4*i+1) 0 <<< 16) +
          (keyList.getD (4*i+2) 0 <<< 8) + keyList.getD (4*i+3) 0
      some ⟨mode, pad, ws, expandGo nk nr (ws - nk) nk w0, nr, ivE, ivE⟩
  else none

/-- `AES.AES.getKey("encryption")`: the round subkeys
`wordToState(w[i:i+4])` for `i in range(0, wordSize, 4)`, in order. -/
def encRoundKeys (w : List Nat) (ws : Nat) : List (List Nat) :=
  (List.range (ws / 4)).map fun r => wordToState ((w.drop (4 * r)).take 4)

/-- The `for _ in repeat(None, numberOfRounds - 1)` body of
`AES.AES.encryptBlock`, consuming round keys `rks[r]`, `rks[r+1]`, ... -/
def encRounds (rks : List (List Nat)) : Nat → Nat → List Nat → List Nat
  | 0, _, state => state
  | fuel + 1, r, state =>
    encRounds rks fuel (r + 1)
      (addRoundKey (rks.getD r []) (mixColumns (shiftRows (subBytes state))))

/-- `AES.AES.encryptBlock`. -/
def encryptBlock (eng : AESengine) (plaintextBlock : List Nat) : List Nat :=
  let rks := encRoundKeys eng.w eng.wordSize
  let state0 := addRoundKey (rks.getD 0 []) (listToState plaintextBlock)
  let state1 := encRounds rks (eng.numberOfRounds - 1) 1 state0
  stateToList (addRoundKey (rks.getD eng.numberOfRounds []) (shiftRows (subBytes state1)))

/-- `AES.AES.padData` (byte path; the string path produces the same byte
values).  With `NoPadding` the pad length is reduced mod 16, so aligned data
is returned unchanged. -/
def padData (pad : PaddingScheme) (data : List Nat) : List Nat :=
  let paddingLength0 := 16 - data.length % 16
  let paddingLength := if pad = NoPadding then paddingLength0 % 16 else paddingLength0
  data ++ List.replicate paddingLength paddingLength

/-- `AES.AES.unpadData`, producing the byte values of the returned string.
With PKCS5 padding the source reads `byteList[-1]` (an exception on an empty
list, hence `none`) and returns `byteList[:-byteList[-1]]`; Python's
`l[:-0]` is the empty list. -/
def unpadData (pad : PaddingScheme) (byteList : List Nat) : Option (List Nat) :=
  match pad with
  | PKCS5Padding =>
    match byteList.getLast? with
    | none => none
    | some n => some (if n = 0 then [] else byteList.take (byteList.length - n))
  | NoPadding => some byteList

/-- The 16-byte slices `inList[i:i+16]` for `i in range(0, len(inList), 16)`
taken by `AES.AES.encrypt`/`decrypt`.  The trip count is at most
`len(inList)`, which is supplied as fuel by `chunks16`. -/
def chunksGo : Nat → List Nat → List (List Nat)
  | 0, _ => []
  | fuel + 1, l => if l = [] then [] else l.take 16 :: chunksGo fuel (l.drop 16)

/-- The list of 16-byte slices of `l` (the last one may be shorter). -/
def chunks16 (l : List Nat) : List (List Nat) := chunksGo l.length l

/-- The CBC loop of `AES.AES.encrypt`: `outBlock` starts at `ivEncrypt`, each
block is XOR-ed with it, encrypted, emitted, and becomes the new `outBlock`;
the final `outBlock` is stored back into `ivEncrypt`. -/
def cbcEncryptGo (eng : AESengine) : List (List Nat) → List Nat → List Nat × List Nat
  | [], outBlock => ([], outBlock)
  | blk :: rest, outBlock =>
    let ob := encryptBlock eng (xorLists outBlock blk)
    let r := cbcEncryptGo eng rest ob
    (ob ++ r.1, r.2)

/-- `AES.AES.encrypt` on a byte list (the string/byte input path), returning
the output bytes together with the updated engine (CBC advances `ivEncrypt`;
ECB leaves the engine unchanged). -/
def encrypt (eng : AESengine) (input : List Nat) : List Nat × AESengine :=
  let inList := padData eng.padding input
  match eng.cipherMode with
  | MODE_CBC =>
    let r := cbcEncryptGo eng (chunks16 inList) eng.ivEncrypt
    (r.1, ⟨eng.cipherMode, eng.padding, eng.wordSize, eng.w,
           eng.numberOfRounds, r.2, eng.ivDecrypt⟩)
  | MODE_ECB =>
    (((chunks16 inList).map (encryptBlock eng)).flatten, eng)

end AES

namespace GCM

/-- `AES_GCM.xor`: byte-wise exclusive or, truncating to the shorter operand
(Python's `zip`). -/
def xorB (x y : List Nat) : List Nat := List.zipWith (fun i j => i ^^^ j) x y

/-- `AES_GCM.intToList number listSize`: big-endian byte list of fixed size. -/
def intToList (number listSize : Nat) : List Nat :=
  (List.range listSize).map fun k => (number >>> (8 * (listSize - 1 - k))) &&& 0xff

/-- The `while y & ((1<<128)-1):` loop of `multGF2` inside `AES_GCM.GHASH`.
Each iteration shifts `y` left once, so after 128 iterations `y` has no bits
left below position 128 and the guard fails; fuel 128 therefore always covers
the loop, which still stops early through the guard test. -/
def multGF2go : Nat → Nat → Nat → Nat → Nat
  | 0, z, _, _ => z
  | fuel + 1, z, x, y =>
    if y &&& (2 ^ 128 - 1) = 0 then z
    else
      let z' := if y &&& 2 ^ 127 ≠ 0 then z ^^^ x else z
      let y' := y <<< 1
      let x' := if x &&& 1 ≠ 0 then (x >>> 1) ^^^ (0xe1 <<< 120) else x >>> 1
      multGF2go fuel z' x' y'

/-- `multGF2` of `AES_GCM.GHASH`: multiply two 16-byte polynomials in
GF(2^128) with the source's reflected reduction. -/
def multGF2 (x y : List Nat) : List Nat :=
  intToList (multGF2go 128 0 (listToInt x) (listToInt y)) 16

/-- `xorMultH` of `AES_GCM.GHASH`: multiply `p xor q` by the hash key. -/
def xorMultH (hkey p q : List Nat) : List Nat := multGF2 hkey (xorB p q)

/-- `gLen` of `AES_GCM.GHASH`: bit length as an 8-byte big-endian string. -/
def gLen (s : List Nat) : List Nat := intToList (s.length * 8) 8

/-- `AES_GCM.GHASH`. -/
def GHASH (hkey aad ctext : List Nat) : List Nat :=
  let aadP := aad ++ List.replicate ((16 - aad.length % 16) % 16) 0
  let ctextP := ctext ++ List.replicate ((16 - ctext.length % 16) % 16) 0
  let xa := (AES.chunks16 aadP).foldl (fun x blk => xorMultH hkey x blk) (List.replicate 16 0)
  let xc := (AES.chunks16 ctextP).foldl (fun x blk => xorMultH hkey x blk) xa
  xorMultH hkey xc (gLen aad ++ gLen ctext)

/-- `incr` inside `AES_GCM.GCM_crypt`: increment the low 32 bits of a counter
block, wrapping to zero at 2^32 - 1. -/
def incr (m : List Nat) : List Nat :=
  let n12 := m.take 12
  let ctr := listToInt (m.drop 12)
  if ctr = (1 <<< 32) - 1 then n12 ++ List.replicate 4 0
  else n12 ++ intToList (ctr + 1) 4

/-- The counter-mode loop of `AES_GCM.GCM_crypt`: for each input block,
increment the counter, encrypt it, and XOR it (truncated) onto the block. -/
def cryptGo (obj : AES.AESengine) : List (List Nat) → List Nat → List Nat
  | [], _ => []
  | blk :: rest, y =>
    let y' := incr y
    xorB (AES.encrypt obj y').1 blk ++ cryptGo obj rest y'

/-- `AES_GCM.GCM_crypt`, returning `(output, tag, g, h)`; `none` where the
underlying `setKey` exits. -/
def GCM_crypt (keysize : AES.KeySize) (key : Nat) (iv input aad : List Nat) :
    Option (List Nat × List Nat × List Nat × List Nat) :=
  match AES.setKey AES.CipherMode.MODE_ECB AES.PaddingScheme.NoPadding keysize key none with
  | none => none
  | some obj =>
    let h := (AES.encrypt obj (List.replicate 16 0)).1
    let y0 := if iv.length = 12 then iv ++ [0x00, 0x00, 0x00, 0x01] else GHASH h [] iv
    let output := cryptGo obj (AES.chunks16 input) y0
    let g := (AES.encrypt obj y0).1
    let tag := xorB (GHASH h aad output) g
    some (output, tag, g, h)

/-- `AES_GCM.GCM_decrypt`: recompute the tag over the received ciphertext and
compare; on mismatch return the failure flag with no plaintext. -/
def GCM_decrypt (keysize : AES.KeySize) (key : Nat) (iv ctext aad tag : List Nat) :
    Option (Bool × Option (List Nat)) :=
  match GCM_crypt keysize key iv ctext aad with
  | none => none
  | some (ptext, _, g, h) =>
    if tag = xorB (GHASH h aad ctext) g then some (true, some ptext)
    else some (false, none)

end GCM

namespace RC4

/-- The simultaneous swap `state[i], state[j] = state[j], state[i]` used by
`RC4.setKey` and `RC4.byteGenerator`. -/
def swapL (l : List Nat) (i j : Nat) : List Nat :=
  let a := l.getD i 0
  let b := l.getD j 0
  (l.set i b).set j a

/-- The module state of `RC4.py`: the 256-byte permutation `state` and the
PRGA indices `p` and `q`. -/
structure RC4State where
  state : List Nat
  p : Nat
  q : Nat
deriving DecidableEq

/-- The body of `RC4.setKey`'s KSA loop: update `j` (with the key lookup
`key[i % len(key)]` guarded by `len(key) > 0`) and swap `state[i]` with
`state[j]`.  The pair carries `(state, j)`. -/
def ksaStep (key : List Nat) (sj : List Nat × Nat) (i : Nat) : List Nat × Nat :=
  let s := sj.1
  let j := sj.2
  let j' :=
    if 0 < key.length then (j + s.getD i 0 + key.getD (i % key.length) 0) % 256
    else (j + s.getD i 0) % 256
  (swapL s i j', j')

/-- `RC4.setKey`: the key-scheduling algorithm over `i in range(256)`,
starting from the identity permutation with `p = q = j = 0`; `p` and `q` are
untouched by the loop. -/
def setKey (key : List Nat) : RC4State :=
  let r := (List.range 256).foldl (ksaStep key) (List.range 256, 0)
  ⟨r.1, 0, 0⟩

/-- Modelled from the claim's words: a KSA step with zero key contribution,
`j = (j + S[i]) % 256`. -/
def ksaStepNoKey (sj : List Nat × Nat) (i : Nat) : List Nat × Nat :=
  let j' := (sj.2 + sj.1.getD i 0) % 256
  (swapL sj.1 i j', j')

/-- Modelled from the claim's words, for comparison with `RC4.setKey`: a KSA
sweep whose update is `j = (j + S[i]) % 256` at every one of the 256 steps,
with the PRGA indices left at zero. -/
def ksaNoKeyRef : RC4State :=
  let r := (List.range 256).foldl ksaStepNoKey (List.range 256, 0)
  ⟨r.1, 0, 0⟩

end RC4

namespace CFB

/-- `AES_CFB.xor`: byte-wise exclusive or, truncating to the shorter list. -/
def xorB (x y : List Nat) : List Nat := List.zipWith (fun i j => i ^^^ j) x y

/-- `AES_CFB.intToList`: big-endian bytes of an integer, `[0]` for zero. -/
def intToList (number : Nat) : List Nat :=
  if number = 0 then [0] else (toBytesLE number).reverse

/-- `AES_CFB.intToBytes`. -/
def intToBytes (number : Nat) : List Nat := intToList number

/-- `AES_CFB.intToList2`: big-endian bytes left-padded with zeros to 16, 24
or 32 elements (or to `length` when one is passed).  `none` where the source
raises: the `assert pZero >= 0` with an explicit length, or `raise
ValueError` beyond 32 bytes. -/
def intToList2 (number : Nat) (len? : Option Nat) : Option (List Nat) :=
  let lst := toBytesLE number
  let L := lst.length
  match len? with
  | some len =>
    if L ≤ len then some (List.replicate (len - L) 0 ++ lst.reverse) else none
  | none =>
    if L ≤ 16 then some (List.replicate (16 - L) 0 ++ lst.reverse)
    else if L ≤ 24 then some (List.replicate (24 - L) 0 ++ lst.reverse)
    else if L ≤ 32 then some (List.replicate (32 - L) 0 ++ lst.reverse)
    else none

/-- `AES_CFB.intToBytes2`. -/
def intToBytes2 (number : Nat) (len? : Option Nat) : Option (List Nat) :=
  intToList2 number len?

/-- `AES_CFB.bytesToInt`. -/
def bytesToInt (b : List Nat) : Nat := listToInt b

/-- The per-byte loop of `AES_CFB.encryptCFB8`: encrypt the register, XOR
its leading byte onto the plaintext byte, then shift the register left one
byte and append the fresh ciphertext byte. -/
def encryptCFB8Go (obj : AES.AESengine) : List Nat → List Nat → List Nat
  | [], _ => []
  | p :: rest, inputBuffer =>
    let out := (AES.encrypt obj inputBuffer).1
    let cbyte := out.getD 0 0 ^^^ p
    cbyte :: encryptCFB8Go obj rest (inputBuffer.drop 1 ++ [cbyte])

/-- `AES_CFB.encryptCFB8` on an integer input. -/
def encryptCFB8 (keysize : AES.KeySize) (key iv input : Nat) : Option Nat :=
  match intToBytes2 iv none with
  | none => none
  | some inputBuffer =>
    let ptext := intToBytes input
    match AES.setKey AES.CipherMode.MODE_ECB AES.PaddingScheme.NoPadding keysize key (some iv) with
    | none => none
    | some obj => some (bytesToInt (encryptCFB8Go obj ptext inputBuffer))

/-- The per-byte loop of `AES_CFB.decryptCFB8`.  The source's register
update is `inputBuffer[1:] + bytes(ctext[i])`, and Python's `bytes(n)` for
an integer `n` is `n` zero bytes — so the register grows by `ctext[i]`
zeros instead of receiving the consumed ciphertext byte. -/
def decryptCFB8Go (obj : AES.AESengine) : List Nat → List Nat → List Nat
  | [], _ => []
  | c :: rest, inputBuffer =>
    let out := (AES.encrypt obj inputBuffer).1
    let pbyte := out.getD 0 0 ^^^ c
    pbyte :: decryptCFB8Go obj rest (inputBuffer.drop 1 ++ List.replicate c 0)

/-- `AES_CFB.decryptCFB8` on an integer input. -/
def decryptCFB8 (keysize : AES.KeySize) (key iv input : Nat) : Option Nat :=
  match intToBytes2 iv none with
  | none => none
  | some inputBuffer =>
    let ctext := intToBytes input
    match AES.setKey AES.CipherMode.MODE_ECB AES.PaddingScheme.NoPadding keysize key (some iv) with
    | none => none
    | some obj => some (bytesToInt (decryptCFB8Go obj ctext inputBuffer))

/-- The per-block loop of `AES_CFB.encryptCFB128`: each step encrypts the
register, XORs (truncated) the plaintext block onto it, emits the result and
makes it the next register. -/
def encryptCFB128Go (obj : AES.AESengine) : List (List Nat) → List Nat → List Nat
  | [], _ => []
  | blk :: rest, inputBuffer =>
    let out := (AES.encrypt obj inputBuffer).1
    let newBuf := xorB out blk
    newBuf ++ encryptCFB128Go obj rest newBuf

/-- `AES_CFB.encryptCFB128` on an integer input. -/
def encryptCFB128 (keysize : AES.KeySize) (key iv input : Nat) : Option Nat :=
  match intToBytes2 iv none with
  | none => none
  | some inputBuffer =>
    match intToList2 input none with
    | none => none
    | some ptext =>
      match AES.setKey AES.CipherMode.MODE_ECB AES.PaddingScheme.NoPadding keysize key (some iv) with
      | none => none
      | some obj => some (bytesToInt (encryptCFB128Go obj (AES.chunks16 ptext) inputBuffer))

/-- The per-block loop of `AES_CFB.decryptCFB128`: the consumed ciphertext
block becomes the next register. -/
def decryptCFB128Go (obj : AES.AESengine) : List (List Nat) → List Nat → List Nat
  | [], _ => []
  | blk :: rest, inputBuffer =>
    let out := (AES.encrypt obj inputBuffer).1
    xorB out blk ++ decryptCFB128Go obj rest blk

/-- `AES_CFB.decryptCFB128` on an integer input. -/
def decryptCFB128 (keysize : AES.KeySize) (key iv input : Nat) : Option Nat :=
  match intToBytes2 iv none with
  | none => none
  | some inputBuffer =>
    match intToList2 input none with
    | none => none
    | some ctext =>
      match AES.setKey AES.CipherMode.MODE_ECB AES.PaddingScheme.NoPadding keysize key (some iv) with
      | none => none
      | some obj => some (bytesToInt (decryptCFB128Go obj (AES.chunks16 ctext) inputBuffer))

end CFB

/-- Tag (equal to the encrypted pre-counter block `g`) produced by the
embedded GCM on the all-zero 128-bit key, 96-bit zero IV, empty ciphertext
and empty AAD (McGrew/Viega test case 1). -/
def gcmTC1Tag : List Nat :=
  [0x58, 0xe2, 0xfc, 0xce, 0xfa, 0x7e, 0x30, 0x61,
   0x36, 0x7f, 0x1d, 0x57, 0xa4, 0xe7, 0x45, 0x5a]

/-- Hash key `H = E(K, 0^128)` for the all-zero 128-bit key. -/
def gcmTC1H : List Nat :=
  [0x66, 0xe9, 0x4b, 0xd4, 0xef, 0x8a, 0x2c, 0x3b,
   0x88, 0x4c, 0xfa, 0x59, 0xca, 0x34, 0x2b, 0x2e]

open AES KeySize CipherMode PaddingScheme

/-- A concrete CBC engine (arbitrary key schedule, zero IV registers) used to
witness the CBC claims on explicit inputs. -/
def cbcTestEngine : AESengine :=
  ⟨MODE_CBC, NoPadding, 44, List.replicate 44 7, 10,
   List.replicate 16 3, List.replicate 16 3⟩

/-- Claim C1: an AES engine constructed with MODE_ECB and NoPadding, after
setKey("SIZE_128", 0x2b7e151628aed2a6abf7158809cf4f3c), encrypts the single
16-byte block 0x6bc1bee22e409f96e93d7e117393172a to exactly the ciphertext
block 0x3ad77bb40d7a3660a89ecaf32466ef97. -/
theorem C1_aes128_ecb_single_block :
    (setKey MODE_ECB NoPadding SIZE_128 0x2b7e151628aed2a6abf7158809cf4f3c none).map
        (fun eng => (AES.encrypt eng (intToList 0x6bc1bee22e409f96e93d7e117393172a)).1) =
      some (intToList 0x3ad77bb40d7a3660a89ecaf32466ef97) := by
  decide

/-- With NoPadding, block-aligned input is passed through `padData` unchanged. -/
theorem padData_aligned (l : List Nat) (h : l.length % 16 = 0) :
    padData NoPadding l = l := by
  simp [padData, h]

theorem chunksGo_nil (f : Nat) : chunksGo f [] = [] := by
  cases f <;> simp [chunksGo]

/-- The fuel of `chunksGo` is irrelevant as long as it dominates the length. -/
theorem chunksGo_congr :
    ∀ (f1 f2 : Nat) (l : List Nat), l.length ≤ f1 → l.length ≤ f2 →
      chunksGo f1 l = chunksGo f2 l := by
  intro f1
  induction f1 with
  | zero =>
    intro f2 l h1 _
    have hl : l = [] := List.eq_nil_of_length_eq_zero (Nat.le_zero.mp h1)
    subst hl
    rw [chunksGo_nil, chunksGo_nil]
  | succ f ih =>
    intro f2 l h1 h2
    cases l with
    | nil => rw [chunksGo_nil, chunksGo_nil]
    | cons a t =>
      cases f2 with
      | zero => simp at h2
      | succ f2' =>
        have hne : (a :: t) ≠ [] := by simp
        simp only [chunksGo, if_neg hne]
        congr 1
        apply ih
        · have := List.length_drop 16 (a :: t)
          simp only [List.length_cons] at this h1 ⊢
          omega
        · have := List.length_drop 16 (a :: t)
          simp only [List.length_cons] at this h2 ⊢
          omega

/-- Unfolding equation for `chunks16` on a nonempty list. -/
theorem chunks16_eq (l : List Nat) (h : l ≠ []) :
    chunks16 l = l.take 16 :: chunks16 (l.drop 16) := by
  cases l with
  | nil => exact absurd rfl h
  | cons a t =>
    show chunksGo (t.length + 1) (a :: t) = _
    simp only [chunksGo, if_neg h]
    congr 1
    apply chunksGo_congr
    · have := List.length_drop 16 (a :: t)
      simp only [List.length_cons] at this ⊢
      omega
    · exact le_rfl

theorem chunks16_append_aux (P2 : List Nat) :
    ∀ (n : Nat) (P1 : List Nat), P1.length ≤ n → P1.length % 16 = 0 →
      chunks16 (P1 ++ P2) = chunks16 P1 ++ chunks16 P2 := by
  intro n
  induction n with
  | zero =>
    intro P1 h1 _
    have hl : P1 = [] := List.eq_nil_of_length_eq_zero (Nat.le_zero.mp h1)
    subst hl
    simp [chunks16, chunksGo_nil]
  | succ n ih =>
    intro P1 hlen hdvd
    rcases eq_or_ne P1 [] with rfl | hne
    · simp [chunks16, chunksGo_nil]
    · have hpos : P1.length ≠ 0 := fun h => hne (List.eq_nil_of_length_eq_zero h)
      have h16 : 16 ≤ P1.length := by omega
      have hne2 : P1 ++ P2 ≠ [] := fun h => hne (List.append_eq_nil.mp h).1
      rw [chunks16_eq _ hne2, chunks16_eq _ hne,
        List.take_append_of_le_length h16, List.drop_append_of_le_length h16]
      have hrec := ih (P1.drop 16)
        (by simp only [List.length_drop]; omega)
        (by simp only [List.length_drop]; omega)
      rw [hrec, List.cons_append]

/-- Chunking a concatenation whose first part is block-aligned splits at the
boundary. -/
theorem chunks16_append (P1 P2 : List Nat) (h : P1.length % 16 = 0) :
    chunks16 (P1 ++ P2) = chunks16 P1 ++ chunks16 P2 :=
  chunks16_append_aux P2 P1.length P1 le_rfl h

/-- `encryptBlock` only reads the key schedule, word size and round count. -/
theorem encryptBlock_congr (eng eng' : AESengine) (hw : eng'.w = eng.w)
    (hws : eng'.wordSize = eng.wordSize) (hnr : eng'.numberOfRounds = eng.numberOfRounds)
    (b : List Nat) : encryptBlock eng' b = encryptBlock eng b := by
  unfold encryptBlock
  rw [hw, hws, hnr]

theorem cbcEncryptGo_congr (eng eng' : AESengine) (hw : eng'.w = eng.w)
    (hws : eng'.wordSize = eng.wordSize) (hnr : eng'.numberOfRounds = eng.numberOfRounds) :
    ∀ (bs : List (List Nat)) (iv : List Nat),
      cbcEncryptGo eng' bs iv = cbcEncryptGo eng bs iv := by
  intro bs
  induction bs with
  | nil => intro iv; rfl
  | cons b rest ih =>
    intro iv
    simp only [cbcEncryptGo, encryptBlock_congr eng eng' hw hws hnr, ih]

/-- The CBC loop over a concatenation of block lists equals running it over
the two halves in sequence, threading the feedback register. -/
theorem cbcEncryptGo_append (eng : AESengine) :
    ∀ (xs ys : List (List Nat)) (iv : List Nat),
      cbcEncryptGo eng (xs ++ ys) iv =
        ((cbcEncryptGo eng xs iv).1 ++ (cbcEncryptGo eng ys (cbcEncryptGo eng xs iv).2).1,
         (cbcEncryptGo eng ys (cbcEncryptGo eng xs iv).2).2) := by
  intro xs
  induction xs with
  | nil => intro ys iv; simp [cbcEncryptGo]
  | cons b rest ih =>
    intro ys iv
    simp only [List.cons_append, cbcEncryptGo, List.append_eq]
    rw [ih]
    simp [List.append_assoc]

/-- Claim C2: for every AES engine in MODE_CBC with NoPadding and for every
pair of block-aligned plaintexts P1 and P2, encrypting P1 ++ P2 in one call
produces the same ciphertext as encrypting P1 and then P2 in two successive
calls on the same engine, and the final engine state (in particular the
advanced ivEncrypt register) is the same. -/
theorem C2_cbc_state_advancement (eng : AESengine) (P1 P2 : List Nat)
    (hm : eng.cipherMode = MODE_CBC) (hp : eng.padding = NoPadding)
    (h1 : P1.length % 16 = 0) (h2 : P2.length % 16 = 0) :
    AES.encrypt eng (P1 ++ P2) =
      ((AES.encrypt eng P1).1 ++ (AES.encrypt (AES.encrypt eng P1).2 P2).1,
       (AES.encrypt (AES.encrypt eng P1).2 P2).2) := by
  obtain ⟨m, p, ws, w, nr, ivE, ivD⟩ := eng
  simp only at hm hp
  subst hm hp
  have hall : (P1 ++ P2).length % 16 = 0 := by
    simp only [List.length_append]
    omega
  simp only [AES.encrypt, padData_aligned _ h1, padData_aligned _ h2, padData_aligned _ hall,
    chunks16_append P1 P2 h1, cbcEncryptGo_append]
  rw [cbcEncryptGo_congr ⟨MODE_CBC, NoPadding, ws, w, nr, ivE, ivD⟩
    ⟨MODE_CBC, NoPadding, ws, w, nr,
      (cbcEncryptGo ⟨MODE_CBC, NoPadding, ws, w, nr, ivE, ivD⟩ (chunks16 P1) ivE).2, ivD⟩
    rfl rfl rfl]

/-- Bit masking by an all-ones pattern is reduction modulo a power of two. -/
theorem andMask (n k : Nat) : n &&& (2 ^ k - 1) = n % 2 ^ k := by
  apply Nat.eq_of_testBit_eq
  intro i
  rw [Nat.testBit_land, Nat.testBit_mod_two_pow, Nat.testBit_two_pow_sub_one]
  rcases Nat.lt_or_ge i k with hlt | hge
  · simp [hlt]
  · simp [Nat.not_lt.mpr hge]

/-- Masking by 0xff keeps the low byte. -/
theorem and255 (a : Nat) : a &&& 0xff = a % 256 := by
  have h := andMask a 8
  norm_num at h
  exact h

/-- Unfolded form of a 4-byte big-endian conversion. -/
theorem intToList4 (n : Nat) :
    GCM.intToList n 4 =
      [(n >>> 24) &&& 0xff, (n >>> 16) &&& 0xff, (n >>> 8) &&& 0xff, (n >>> 0) &&& 0xff] := rfl

/-- A 4-byte big-endian conversion only sees the low 32 bits. -/
theorem intToList4_mod (n : Nat) : GCM.intToList n 4 = GCM.intToList (n % 2 ^ 32) 4 := by
  rw [intToList4, intToList4]
  simp only [and255, Nat.shiftRight_eq_div_pow, List.cons.injEq, and_true]
  norm_num
  omega

/-- Claim C4: `incr` applied to a 16-byte counter block keeps the high 12
bytes and replaces the low 4 bytes by the big-endian value of the old low 4
bytes plus one modulo 2^32; in particular, at 2^32 - 1 the low 4 bytes wrap
to zero. -/
theorem C4_gcm_incr (m : List Nat) (_hlen : m.length = 16) :
    GCM.incr m = m.take 12 ++ GCM.intToList ((listToInt (m.drop 12) + 1) % 2 ^ 32) 4
    ∧ (listToInt (m.drop 12) = 2 ^ 32 - 1 →
        GCM.incr m = m.take 12 ++ [0, 0, 0, 0]) := by
  have hmain :
      GCM.incr m = m.take 12 ++ GCM.intToList ((listToInt (m.drop 12) + 1) % 2 ^ 32) 4 := by
    unfold GCM.incr
    by_cases hc : listToInt (m.drop 12) = (1 <<< 32) - 1
    · rw [if_pos hc, hc]
      congr 1
    · rw [if_neg hc]
      congr 1
      exact intToList4_mod _
  refine ⟨hmain, fun h2 => ?_⟩
  have h0 : GCM.intToList ((2 ^ 32 - 1 + 1) % 2 ^ 32) 4 = [0, 0, 0, 0] := by decide
  rw [hmain, h2, h0]

/-- Witness for C4 at a concrete 16-byte counter block with saturated low
32 bits (the wraparound case). -/
theorem C4_witness :
    GCM.incr (List.replicate 12 0xab ++ [0xff, 0xff, 0xff, 0xff]) =
      (List.replicate 12 0xab ++ [0xff, 0xff, 0xff, 0xff]).take 12 ++
        GCM.intToList
          ((listToInt ((List.replicate 12 0xab ++ [0xff, 0xff, 0xff, 0xff]).drop 12) + 1) % 2 ^ 32)
          4 :=
  (C4_gcm_incr (List.replicate 12 0xab ++ [0xff, 0xff, 0xff, 0xff]) (by decide)).1

/-- Claim C3: whenever the underlying `GCM_crypt` runs (the key fits the
declared size), `GCM_decrypt` returns the success flag together with the
derived plaintext exactly when the recomputed tag equals the claimed tag,
and on a mismatch it returns the failure flag with no plaintext value. -/
theorem C3_gcm_decrypt_tag_gate (keysize : KeySize) (key : Nat)
    (iv ctext aad tag ptext t g h : List Nat)
    (hc : GCM.GCM_crypt keysize key iv ctext aad = some (ptext, t, g, h)) :
    (tag = GCM.xorB (GCM.GHASH h aad ctext) g →
      GCM.GCM_decrypt keysize key iv ctext aad tag = some (true, some ptext))
    ∧ (tag ≠ GCM.xorB (GCM.GHASH h aad ctext) g →
      GCM.GCM_decrypt keysize key iv ctext aad tag = some (false, none)) := by
  unfold GCM.GCM_decrypt
  rw [hc]
  constructor
  · intro ht
    simp [ht]
  · intro ht
    simp [ht]

/-- Witness for C2 at a concrete CBC engine, IV and block-aligned inputs. -/
theorem C2_witness :
    AES.encrypt cbcTestEngine (List.replicate 16 1 ++ List.replicate 16 2) =
      ((AES.encrypt cbcTestEngine (List.replicate 16 1)).1 ++
         (AES.encrypt (AES.encrypt cbcTestEngine (List.replicate 16 1)).2
           (List.replicate 16 2)).1,
       (AES.encrypt (AES.encrypt cbcTestEngine (List.replicate 16 1)).2
         (List.replicate 16 2)).2) :=
  C2_cbc_state_advancement cbcTestEngine (List.replicate 16 1) (List.replicate 16 2)
    rfl rfl (by decide) (by decide)

/-- Witness for C3 at GCM test case 1 (zero key, 96-bit zero IV, empty
ciphertext and AAD) with the correct tag: decryption succeeds and returns
the (empty) plaintext. -/
theorem C3_witness :
    GCM.GCM_decrypt SIZE_128 0 (List.replicate 12 0) [] [] gcmTC1Tag =
      some (true, some []) :=
  (C3_gcm_decrypt_tag_gate SIZE_128 0 (List.replicate 12 0) [] [] gcmTC1Tag
      [] gcmTC1Tag gcmTC1Tag gcmTC1H (by decide)).1 (by decide)

/-- Claim C7 counterexample: on a malformed PKCS5 trailer (last byte 5 but
the preceding pad bytes not equal to 5), `unpadData` signals no error at
all: it succeeds and returns the input stripped of its last five bytes. -/
theorem C7_counterexample :
    (List.getLast? [1, 2, 3, 4, 5, 6, 7, 8, 9, 10, 11, 12, 13, 14, 15, 5] = some 5
      ∧ (List.drop 11 [1, 2, 3, 4, 5, 6, 7, 8, 9, 10, 11, 12, 13, 14, 15, 5]).all
          (fun b => b == 5) = false)
    ∧ unpadData PKCS5Padding [1, 2, 3, 4, 5, 6, 7, 8, 9, 10, 11, 12, 13, 14, 15, 5] =
        some [1, 2, 3, 4, 5, 6, 7, 8, 9, 10, 11] := by
  decide

/-- Claim C7 (amended): with PKCS5Padding, unpadData reads the last byte N
and unconditionally removes the last N bytes, succeeding on every nonempty
input; when the trailer is a valid PKCS5 pad this removes exactly the pad,
but no validation is performed and no error is ever signalled. -/
theorem C7_amended_unpad (l : List Nat) (n : Nat) (hlast : l.getLast? = some n) :
    (unpadData PKCS5Padding l).isSome = true
    ∧ (1 ≤ n → unpadData PKCS5Padding l = some (l.take (l.length - n))) := by
  unfold unpadData
  rw [hlast]
  refine ⟨rfl, fun h1 => ?_⟩
  have hn : ¬ n = 0 := by omega
  simp [hn]

/-- Witness for C7 on a concrete validly padded input. -/
theorem C7_witness :
    (unpadData PKCS5Padding [97, 98, 2, 2]).isSome = true
    ∧ (1 ≤ 2 → unpadData PKCS5Padding [97, 98, 2, 2] =
        some (List.take ([97, 98, 2, 2].length - 2) [97, 98, 2, 2])) :=
  C7_amended_unpad [97, 98, 2, 2] 2 (by decide)

/-- Claim C8 counterexample: the one-byte key 0x01 is accepted by setKey for
SIZE_192 even though its byte length 1 disagrees with the declared 24 bytes,
refuting the claim that shorter keys are rejected. -/
theorem C8_counterexample :
    klen 1 = 1 ∧ keySizeTable SIZE_192 = 24 ∧
      (setKey MODE_ECB NoPadding SIZE_192 1 none).isSome = true := by
  decide

/-- Claim C8 (amended): setKey rejects (with the InvalidKeySize exit) exactly
the keys whose byte length exceeds the declared size; keys of byte length at
most the declared size are accepted, and a successful setKey binds the round
count through {128 → 10, 192 → 12, 256 → 14}. -/
theorem C8_amended_setkey (ks : KeySize) (key : Nat) :
    (klen key ≤ keySizeTable ks →
      (setKey MODE_ECB NoPadding ks key none).map AESengine.numberOfRounds =
        some (numberOfRoundsTable ks))
    ∧ (keySizeTable ks < klen key → setKey MODE_ECB NoPadding ks key none = none) := by
  constructor
  · intro h
    unfold setKey
    rw [if_pos h]
    rfl
  · intro h
    unfold setKey
    rw [if_neg (Nat.not_le.mpr h)]

/-- Witness for C8 on a full-length AES-128 key. -/
theorem C8_witness :
    (setKey MODE_ECB NoPadding SIZE_128 0x2b7e151628aed2a6abf7158809cf4f3c none).map
        AESengine.numberOfRounds = some (numberOfRoundsTable SIZE_128) :=
  (C8_amended_setkey SIZE_128 0x2b7e151628aed2a6abf7158809cf4f3c).1 (by decide)

/-- Claim C10: RC4's setKey called with the empty key runs the full KSA with
zero key contribution at every one of the 256 swap steps (the guarded branch
`j = (j + S[i]) % 256`, never indexing modulo zero) and leaves the PRGA
indices `p` and `q` at zero. -/
theorem C10_rc4_empty_key : RC4.setKey [] = RC4.ksaNoKeyRef := by
  unfold RC4.setKey RC4.ksaNoKeyRef
  have h : RC4.ksaStep [] = RC4.ksaStepNoKey := by
    funext sj i
    unfold RC4.ksaStep RC4.ksaStepNoKey
    simp
  rw [h]

/-- The fueled little-endian byte loop computes base-256 digits. -/
theorem toBytesLEgo_eq_digits :
    ∀ (fuel n : Nat), n ≤ fuel → toBytesLEgo fuel n = Nat.digits 256 n := by
  intro fuel
  induction fuel with
  | zero =>
    intro n h
    have hn : n = 0 := Nat.le_zero.mp h
    subst hn
    simp [toBytesLEgo]
  | succ f ih =>
    intro n h
    rcases Nat.eq_zero_or_pos n with rfl | hpos
    · simp [toBytesLEgo]
    · have hne : ¬ n = 0 := Nat.pos_iff_ne_zero.mp hpos
      simp only [toBytesLEgo, if_neg hne]
      rw [and255, Nat.shiftRight_eq_div_pow]
      norm_num
      rw [ih (n / 256) (by have := Nat.div_lt_self hpos (by norm_num : (1:Nat) < 256); omega)]
      rw [Nat.digits_def' (by norm_num : (1:Nat) < 256) hpos]

/-- `toBytesLE` is the little-endian base-256 digit list. -/
theorem toBytesLE_eq_digits (n : Nat) : toBytesLE n = Nat.digits 256 n :=
  toBytesLEgo_eq_digits n n le_rfl

/-- Appending a final byte shifts the accumulated big-endian value. -/
theorem listToInt_concat (xs : List Nat) (d : Nat) :
    listToInt (xs ++ [d]) = 256 * listToInt xs + d := by
  unfold listToInt
  rw [List.foldl_append]
  show (List.foldl _ 0 xs <<< 8) + d = _
  rw [Nat.shiftLeft_eq]
  norm_num
  omega

/-- Big-endian folding of a reversed digit list is `Nat.ofDigits`. -/
theorem listToInt_reverse_ofDigits : ∀ (L : List Nat),
    listToInt L.reverse = Nat.ofDigits 256 L := by
  intro L
  induction L with
  | nil => simp [listToInt, Nat.ofDigits_nil]
  | cons d t ih =>
    rw [List.reverse_cons, listToInt_concat, ih, Nat.ofDigits_cons]
    omega

/-- Leading zero bytes do not change the big-endian value. -/
theorem listToInt_replicate_zero (z : Nat) (l : List Nat) :
    listToInt (List.replicate z 0 ++ l) = listToInt l := by
  induction z with
  | zero => simp
  | succ n ih =>
    rw [List.replicate_succ, List.cons_append]
    unfold listToInt at ih ⊢
    simp only [List.foldl_cons]
    have h0 : ((0 : Nat) <<< 8) + 0 = 0 := by norm_num [Nat.shiftLeft_eq]
    rw [h0]
    exact ih

/-- A number below 256^k has at most k base-256 digits. -/
theorem digitsLen_le (n k : Nat) (h : n < 256 ^ k) : (Nat.digits 256 n).length ≤ k := by
  rcases Nat.eq_zero_or_pos n with rfl | hpos
  · simp
  · by_contra hlt
    push_neg at hlt
    have hb := Nat.base_pow_length_digits_le 256 n (by norm_num) (Nat.pos_iff_ne_zero.mp hpos)
    have h4 : 256 ^ (k + 1) ≤ 256 ^ (Nat.digits 256 n).length :=
      Nat.pow_le_pow_right (by norm_num) hlt
    have hps : 256 ^ (k + 1) = 256 * 256 ^ k := by rw [pow_succ]; omega
    have h3 : 256 * n < 256 * 256 ^ k := by omega
    omega

/-- For values below 256^16 the CFB `intToList2` helper without an explicit
length succeeds with the 16-byte zero-padded big-endian list, whose length is
16, whose value is the input, and whose entries are bytes. -/
theorem intToList2_props (n : Nat) (h : n < 256 ^ 16) :
    ∃ l, CFB.intToList2 n none = some l ∧ l.length = 16 ∧ listToInt l = n ∧
      ∀ b ∈ l, b < 256 := by
  have hlen : (toBytesLE n).length ≤ 16 := by
    rw [toBytesLE_eq_digits]
    exact digitsLen_le n 16 h
  refine ⟨List.replicate (16 - (toBytesLE n).length) 0 ++ (toBytesLE n).reverse, ?_, ?_, ?_, ?_⟩
  · unfold CFB.intToList2
    simp [hlen]
  · simp only [List.length_append, List.length_replicate, List.length_reverse]
    omega
  · rw [listToInt_replicate_zero, listToInt_reverse_ofDigits, toBytesLE_eq_digits,
      Nat.ofDigits_digits]
  · intro b hb
    rcases List.mem_append.mp hb with hb | hb
    · rw [List.eq_of_mem_replicate hb]
      norm_num
    · have : b ∈ toBytesLE n := List.mem_reverse.mp hb
      rw [toBytesLE_eq_digits] at this
      exact Nat.digits_lt_base (by norm_num) this

/-- A byte list's big-endian value is below 256 to its length. -/
theorem listToInt_lt (l : List Nat) (hb : ∀ b ∈ l, b < 256) :
    listToInt l < 256 ^ l.length := by
  have h1 : listToInt l = Nat.ofDigits 256 l.reverse := by
    rw [← listToInt_reverse_ofDigits l.reverse, List.reverse_reverse]
  rw [h1, ← List.length_reverse l]
  exact Nat.ofDigits_lt_base_pow_length (by norm_num)
    (fun x hx => hb x (List.mem_reverse.mp hx))

/-- Big-endian reading is injective on byte lists of equal length. -/
theorem listToInt_inj : ∀ (a b : List Nat), a.length = b.length →
    (∀ x ∈ a, x < 256) → (∀ x ∈ b, x < 256) → listToInt a = listToInt b → a = b := by
  intro a
  induction a using List.reverseRecOn with
  | nil =>
    intro b hlen _ _ _
    have hb : b = [] := List.eq_nil_of_length_eq_zero hlen.symm
    rw [hb]
  | append_singleton xs d ih =>
    intro b hlen ha hb heq
    rcases List.eq_nil_or_concat b with rfl | ⟨ys, e, rfl⟩
    · simp at hlen
    · rw [List.concat_eq_append] at hlen hb heq ⊢
      rw [listToInt_concat, listToInt_concat] at heq
      have hd : d < 256 := ha d (by simp)
      have he : e < 256 := hb e (by simp)
      have hde : d = e := by omega
      subst hde
      have hAB : listToInt xs = listToInt ys := by omega
      have hlen' : xs.length = ys.length := by
        simp only [List.length_append, List.length_cons] at hlen
        omega
      rw [ih ys hlen' (fun x hx => ha x (by simp [hx])) (fun x hx => hb x (by simp [hx])) hAB]

/-- The CFB `intToList2` helper inverts big-endian reading of 16-byte lists. -/
theorem intToList2_listToInt (l : List Nat) (h16 : l.length = 16)
    (hbyte : ∀ x ∈ l, x < 256) : CFB.intToList2 (listToInt l) none = some l := by
  have hlt : listToInt l < 256 ^ 16 := h16 ▸ listToInt_lt l hbyte
  obtain ⟨l', hl', hlen', hval', hb'⟩ := intToList2_props (listToInt l) hlt
  rw [hl', listToInt_inj l' l (by omega) hb' hbyte hval']

/-- A default-0 list lookup in a byte list is a byte. -/
theorem getD_lt_256 (l : List Nat) (i : Nat) (h : ∀ x ∈ l, x < 256) :
    l.getD i 0 < 256 := by
  rw [List.getD_eq_getElem?_getD]
  rcases h' : l[i]? with _ | v
  · norm_num
  · have hv : v ∈ l := List.getElem?_mem h'
    simpa using h v hv

/-- XOR of two bytes is a byte. -/
theorem xor_lt_256 (a b : Nat) (ha : a < 256) (hb : b < 256) : a ^^^ b < 256 :=
  show a ^^^ b < 2 ^ 8 from
    Nat.xor_lt_two_pow (show a < 2 ^ 8 from ha) (show b < 2 ^ 8 from hb)

/-- Byte-wise XOR of byte lists yields bytes. -/
theorem zipWith_xor_lt : ∀ (a b : List Nat), (∀ x ∈ a, x < 256) → (∀ x ∈ b, x < 256) →
    ∀ x ∈ List.zipWith (fun i j => i ^^^ j) a b, x < 256 := by
  intro a
  induction a with
  | nil => intro b _ _ x hx; simp at hx
  | cons a0 t ih =>
    intro b ha hb x hx
    cases b with
    | nil => simp at hx
    | cons b0 u =>
      simp only [List.zipWith_cons_cons, List.mem_cons] at hx
      rcases hx with rfl | hx
      · exact xor_lt_256 a0 b0 (ha a0 (by simp)) (hb b0 (by simp))
      · exact ih u (fun y hy => ha y (by simp [hy])) (fun y hy => hb y (by simp [hy])) x hx

/-- XOR-ing a list on twice recovers the original (equal lengths). -/
theorem zipWith_xor_cancel : ∀ (a b : List Nat), a.length = b.length →
    List.zipWith (fun i j => i ^^^ j) a (List.zipWith (fun i j => i ^^^ j) a b) = b := by
  intro a
  induction a with
  | nil =>
    intro b h
    rw [(List.eq_nil_of_length_eq_zero h.symm : b = [])]
    rfl
  | cons a0 t ih =>
    intro b h
    cases b with
    | nil => simp at h
    | cons b0 u =>
      simp only [List.zipWith_cons_cons]
      rw [← Nat.xor_assoc, Nat.xor_self, Nat.zero_xor, ih u (by simpa using h)]

/-- Every S-box entry is a byte. -/
theorem sBox_lt : ∀ x ∈ sBox, x < 256 := by decide

/-- SubBytes yields bytes whatever the input state holds. -/
theorem subBytes_lt (s : List Nat) : ∀ x ∈ subBytes s, x < 256 := by
  intro x hx
  obtain ⟨e, _, rfl⟩ := List.mem_map.mp hx
  exact getD_lt_256 sBox e sBox_lt

/-- ShiftRows only permutes (a subset of) the input bytes. -/
theorem shiftRows_subset (s : List Nat) : ∀ x ∈ shiftRows s, x ∈ s := by
  intro x hx
  simp only [shiftRows, List.mem_append] at hx
  rcases hx with ((((((h | h) | h) | h) | h) | h) | h) <;>
    first
      | exact List.mem_of_mem_take h
      | exact List.mem_of_mem_drop h
      | exact List.mem_of_mem_drop (List.mem_of_mem_take h)

/-- Every extracted round-subkey byte is a byte. -/
theorem wordToState_lt (wl : List Nat) : ∀ x ∈ wordToState wl, x < 256 := by
  intro x hx
  simp only [wordToState, List.mem_cons, List.not_mem_nil, or_false] at hx
  rcases hx with rfl | rfl | rfl | rfl | rfl | rfl | rfl | rfl | rfl | rfl | rfl | rfl | rfl |
    rfl | rfl | rfl <;>
    exact Nat.lt_succ_of_le Nat.and_le_right

/-- Every byte of every round key produced by the key schedule is a byte. -/
theorem encRoundKeys_lt (w : List Nat) (ws i : Nat) :
    ∀ x ∈ (encRoundKeys w ws).getD i [], x < 256 := by
  intro x hx
  rw [List.getD_eq_getElem?_getD] at hx
  rcases h' : (encRoundKeys w ws)[i]? with _ | rk
  · rw [h'] at hx; simp at hx
  · rw [h'] at hx
    simp only [Option.getD_some] at hx
    have hrk : rk ∈ encRoundKeys w ws := List.getElem?_mem h'
    obtain ⟨r, _, rfl⟩ := List.mem_map.mp hrk
    exact wordToState_lt _ x hx

/-- The column-major relayout keeps byte lists byte-valued. -/
theorem listToState_lt (l : List Nat) (h : ∀ x ∈ l, x < 256) :
    ∀ x ∈ listToState l, x < 256 := by
  intro x hx
  simp only [listToState, List.mem_cons, List.not_mem_nil, or_false] at hx
  rcases hx with rfl | rfl | rfl | rfl | rfl | rfl | rfl | rfl | rfl | rfl | rfl | rfl | rfl |
    rfl | rfl | rfl <;>
    exact getD_lt_256 l _ h

/-- An encrypted block always consists of 16 entries. -/
theorem encryptBlock_length (eng : AESengine) (b : List Nat) :
    (encryptBlock eng b).length = 16 := by
  unfold encryptBlock stateToList listToState
  rfl

/-- An encrypted block always consists of bytes (the final round ends in an
S-box pass XOR-ed with round-key bytes). -/
theorem encryptBlock_bytes (eng : AESengine) (b : List Nat) :
    ∀ x ∈ encryptBlock eng b, x < 256 := by
  intro x hx
  unfold encryptBlock stateToList at hx
  apply listToState_lt _ _ x hx
  intro y hy
  apply zipWith_xor_lt _ _ (encRoundKeys_lt eng.w eng.wordSize eng.numberOfRounds)
    (fun z hz => subBytes_lt _ z (shiftRows_subset _ z hz)) y hy

/-- A list of exactly 16 bytes forms a single chunk. -/
theorem chunks16_single (l : List Nat) (h : l.length = 16) : chunks16 l = [l] := by
  have hne : l ≠ [] := by
    intro h0
    rw [h0] at h
    simp at h
  rw [chunks16_eq l hne, List.take_of_length_le (by omega), List.drop_eq_nil_of_le (by omega)]
  rfl

/-- ECB encryption of a single 16-byte block with NoPadding is one block
encryption, and the engine is returned unchanged. -/
theorem ecb_encrypt_block16 (eng : AESengine) (hm : eng.cipherMode = MODE_ECB)
    (hp : eng.padding = NoPadding) (l : List Nat) (h16 : l.length = 16) :
    AES.encrypt eng l = (encryptBlock eng l, eng) := by
  obtain ⟨m, p, ws, w, nr, a, b⟩ := eng
  simp only at hm hp
  subst hm
  subst hp
  have hpad : padData NoPadding l = l := padData_aligned l (by omega)
  simp only [AES.encrypt, hpad, chunks16_single l h16, List.map_cons, List.map_nil,
    List.flatten_cons, List.flatten_nil, List.append_nil]

/-- A successful ECB `setKey` exists exactly under the key-length check, and
the resulting engine carries the requested mode and padding. -/
theorem setKey_ecb_some (pad : PaddingScheme) (ks : KeySize) (key : Nat) (iv : Option Nat)
    (h : klen key ≤ keySizeTable ks) :
    ∃ eng, setKey MODE_ECB pad ks key iv = some eng
      ∧ eng.cipherMode = MODE_ECB ∧ eng.padding = pad := by
  unfold setKey
  rw [if_pos h]
  cases iv <;> exact ⟨_, rfl, rfl, rfl⟩

/-- Claim C6 (amended): the CFB-128 round-trip holds for plaintexts of at
most 16 bytes given in the integer input form (any accepted key, any IV of
at most 16 bytes); plaintexts of more than 32 bytes — in particular all
256-byte plaintexts — are rejected by `intToList2` with a ValueError, so the
claimed 256-byte round-trip never runs. -/
theorem C6_amended_cfb128_roundtrip (ks : KeySize) (key iv pt : Nat)
    (hk : klen key ≤ keySizeTable ks) (hiv : iv < 2 ^ 128) (hpt : pt < 2 ^ 128) :
    (CFB.encryptCFB128 ks key iv pt).bind (CFB.decryptCFB128 ks key iv) = some pt := by
  have h256 : (2 : Nat) ^ 128 = 256 ^ 16 := by norm_num
  rw [h256] at hiv hpt
  obtain ⟨ivL, hivL, hivLen, _, _⟩ := intToList2_props iv hiv
  obtain ⟨ptL, hptL, hptLen, hptVal, hptB⟩ := intToList2_props pt hpt
  obtain ⟨eng, heng, hm, hp⟩ := setKey_ecb_some NoPadding ks key (some iv) hk
  have hE : AES.encrypt eng ivL = (encryptBlock eng ivL, eng) :=
    ecb_encrypt_block16 eng hm hp ivL hivLen
  have hctB : ∀ x ∈ CFB.xorB (encryptBlock eng ivL) ptL, x < 256 :=
    zipWith_xor_lt _ _ (encryptBlock_bytes eng ivL) hptB
  have hctLen : (CFB.xorB (encryptBlock eng ivL) ptL).length = 16 := by
    unfold CFB.xorB
    rw [List.length_zipWith, encryptBlock_length, hptLen]
    simp
  unfold CFB.encryptCFB128
  unfold CFB.intToBytes2
  simp only [hivL, hptL, heng, chunks16_single ptL hptLen]
  simp only [CFB.encryptCFB128Go, hE, List.append_nil]
  unfold CFB.decryptCFB128
  unfold CFB.intToBytes2 CFB.bytesToInt
  simp only [Option.some_bind]
  simp only [hivL, intToList2_listToInt _ hctLen hctB, heng, chunks16_single _ hctLen]
  simp only [CFB.decryptCFB128Go, hE, List.append_nil]
  unfold CFB.xorB
  rw [zipWith_xor_cancel _ _ (by rw [encryptBlock_length, hptLen]), hptVal]

/-- Witness for the amended C6 on a concrete 16-byte-or-less plaintext. -/
theorem C6_witness :
    (CFB.encryptCFB128 SIZE_128 0x2b7e151628aed2a6abf7158809cf4f3c 1 0x42).bind
      (CFB.decryptCFB128 SIZE_128 0x2b7e151628aed2a6abf7158809cf4f3c 1) = some 0x42 :=
  C6_amended_cfb128_roundtrip SIZE_128 0x2b7e151628aed2a6abf7158809cf4f3c 1 0x42
    (by decide) (by decide) (by decide)

/-- Claim C6 counterexample: a 256-byte plaintext in the integer input form
(the form the repository's own test driver uses) makes `encryptCFB128` fail
outright — `intToList2` raises ValueError beyond 32 bytes — so no ciphertext
is produced at all, contradicting the claimed error-free 256-byte
round-trip. -/
theorem C6_counterexample :
    (toBytesLE (2 ^ 2040)).length = 256
    ∧ CFB.encryptCFB128 SIZE_128 0x2b7e151628aed2a6abf7158809cf4f3c 1 (2 ^ 2040) = none := by
  constructor
  · decide
  · decide

/-- Claim C5 (code bug): the CFB-8 round-trip fails.  With the AES-128 key
0x2b7e151628aed2a6abf7158809cf4f3c, IV 1 and the two-byte plaintext 22082
(0x5642), encryption yields 448 (0x01c0), but decrypting 448 returns 22112
(0x5660) — not the original plaintext.  The cause is `decryptCFB8`'s register
update `inputBuffer[1:] + bytes(ctext[i])`, which appends `ctext[i]` zero
bytes instead of the consumed ciphertext byte. -/
theorem C5_cfb8_roundtrip_fails :
    CFB.encryptCFB8 SIZE_128 0x2b7e151628aed2a6abf7158809cf4f3c 1 22082 = some 448
    ∧ CFB.decryptCFB8 SIZE_128 0x2b7e151628aed2a6abf7158809cf4f3c 1 448 = some 22112
    ∧ (22112 : Nat) ≠ 22082 := by
  refine ⟨by decide, by decide, by decide⟩

end Crypto
